import Mathlib

/-!
# Verification of the bounded-concurrency tree-processing pipeline

Shallow embedding of the core pipeline of this repository:
`LargeFileProcessor` (tree flattening, chunking, semaphore-gated concurrency,
retry with exponential backoff, throttled progress with ETA) and
`RealTimeProcessor` (sessions, pause/resume/stop, main-thread batch loop),
together with the worker fallback, plus theorems checking the specified
properties against these definitions.

JavaScript numbers are modelled as `Nat`/`Int` (all quantities involved are
integers in the source); `null`/`undefined` is modelled as `Option`; a thrown
exception is modelled as `Except.error` or an explicit outcome constructor.
-/

set_option autoImplicit false

namespace Pipeline

/-! ## Data model: Figma node trees

`FigmaNode` keeps the fields the pipeline actually consumes: identity, name,
type tag and the ordered children list.  A child entry may be `none`,
modelling a `null` entry inside a `children` array; a missing `children`
field is modelled as the empty list (the source guards with
`Array.isArray(node.children)`, and `for`-iteration over it is the same as
iterating an empty array). -/
inductive FigmaNode : Type where
  | mk (id name ty : String) (children : List (Option FigmaNode)) : FigmaNode
deriving Repr

def FigmaNode.id : FigmaNode → String
  | .mk i _ _ _ => i

def FigmaNode.name : FigmaNode → String
  | .mk _ n _ _ => n

def FigmaNode.ty : FigmaNode → String
  | .mk _ _ t _ => t

def FigmaNode.children : FigmaNode → List (Option FigmaNode)
  | .mk _ _ _ cs => cs

/-- The flattened projection: the node data plus the assigned `depth`
(`{ ...node, depth }` in the source). -/
structure FlatNode where
  id : String
  name : String
  ty : String
  depth : Nat
deriving Repr, DecidableEq

def flatOf (n : FigmaNode) (depth : Nat) : FlatNode :=
  ⟨n.id, n.name, n.ty, depth⟩

/-! ## `LargeFileProcessor.flattenDocumentTree`

Source (large-file-processor.ts, lines 137-152): if the node is
null/undefined return `[]` (with a logged warning); otherwise emit the node
with the current depth, then append the flattening of each non-null child at
`depth + 1`, in order; null children are skipped. -/

mutual

def flattenNode : FigmaNode → Nat → List FlatNode
  | .mk i nm t cs, depth => ⟨i, nm, t, depth⟩ :: flattenChildren cs (depth + 1)
termination_by n _ => sizeOf n

def flattenChildren : List (Option FigmaNode) → Nat → List FlatNode
  | [], _ => []
  | none :: rest, depth => flattenChildren rest depth
  | some c :: rest, depth => flattenNode c depth ++ flattenChildren rest depth
termination_by l _ => sizeOf l

end

def flattenDocumentTree : Option FigmaNode → Nat → List FlatNode
  | none, _ => []
  | some n, depth => flattenNode n depth

/-! ## `RealTimeProcessor.countNodes`

Source (part_004, lines 246-252): `count = 1` plus the recursive count of
each child; the code dereferences each child unconditionally, so a `null`
entry inside a `children` array makes the recursive call throw a
`TypeError`.  A thrown call is modelled by `none`. -/

mutual

def countNodesSrc : FigmaNode → Option Nat
  | .mk _ _ _ cs => do
      let c ← countChildrenSrc cs
      pure (1 + c)
termination_by n => sizeOf n

def countChildrenSrc : List (Option FigmaNode) → Option Nat
  | [] => some 0
  | none :: _ => none
  | some c :: rest => do
      let a ← countNodesSrc c
      let b ← countChildrenSrc rest
      pure (a + b)
termination_by l => sizeOf l

end

-- The number of non-null nodes of a tree (the count the flattened sequence
-- is compared against).
mutual

def countNonNull : FigmaNode → Nat
  | .mk _ _ _ cs => 1 + countNonNullChildren cs
termination_by n => sizeOf n

def countNonNullChildren : List (Option FigmaNode) → Nat
  | [] => 0
  | none :: rest => countNonNullChildren rest
  | some c :: rest => countNonNull c + countNonNullChildren rest
termination_by l => sizeOf l

end

def countNonNullRoot : Option FigmaNode → Nat
  | none => 0
  | some n => countNonNull n

/-! ### C1 supporting lemmas -/

mutual

theorem flattenNode_length : ∀ (n : FigmaNode) (d : Nat),
    (flattenNode n d).length = countNonNull n
  | .mk i nm t cs, d => by
      have h := flattenChildren_length cs (d + 1)
      simp only [flattenNode, countNonNull, List.length_cons]
      omega
termination_by n _ => sizeOf n

theorem flattenChildren_length : ∀ (cs : List (Option FigmaNode)) (d : Nat),
    (flattenChildren cs d).length = countNonNullChildren cs
  | [], _ => by simp [flattenChildren, countNonNullChildren]
  | none :: rest, d => by
      have h := flattenChildren_length rest d
      simp only [flattenChildren, countNonNullChildren]
      omega
  | some c :: rest, d => by
      have h1 := flattenNode_length c d
      have h2 := flattenChildren_length rest d
      simp only [flattenChildren, countNonNullChildren, List.length_append]
      omega
termination_by l _ => sizeOf l

end

/-- The children traversal equals: keep the non-null children, flatten each
at the given depth, concatenate in order. -/
theorem flattenChildren_eq_join (cs : List (Option FigmaNode)) (d : Nat) :
    flattenChildren cs d = ((cs.filterMap id).map (fun c => flattenNode c d)).flatten := by
  induction cs with
  | nil => simp [flattenChildren]
  | cons c rest ih =>
      cases c with
      | none => simpa [flattenChildren] using ih
      | some cn => simp [flattenChildren, ih]

mutual

theorem depth_le_of_mem_flattenNode : ∀ (n : FigmaNode) (d : Nat) (x : FlatNode),
    x ∈ flattenNode n d → d ≤ x.depth
  | .mk i nm t cs, d, x => by
      intro hx
      simp only [flattenNode, List.mem_cons] at hx
      rcases hx with h | h
      · simp [h]
      · have := depth_le_of_mem_flattenChildren cs (d + 1) x h
        omega
termination_by n _ _ => sizeOf n

theorem depth_le_of_mem_flattenChildren : ∀ (cs : List (Option FigmaNode)) (d : Nat)
    (x : FlatNode), x ∈ flattenChildren cs d → d ≤ x.depth
  | [], _, x => by intro hx; simp [flattenChildren] at hx
  | none :: rest, d, x => by
      intro hx
      exact depth_le_of_mem_flattenChildren rest d x (by simpa [flattenChildren] using hx)
  | some c :: rest, d, x => by
      intro hx
      simp only [flattenChildren, List.mem_append] at hx
      rcases hx with h | h
      · exact depth_le_of_mem_flattenNode c d x h
      · exact depth_le_of_mem_flattenChildren rest d x h
termination_by l _ _ => sizeOf l

end

mutual

theorem countNodesSrc_eq_countNonNull : ∀ (n : FigmaNode) (k : Nat),
    countNodesSrc n = some k → countNonNull n = k
  | .mk i nm t cs, k => by
      intro h
      rw [countNodesSrc] at h
      cases hc : countChildrenSrc cs with
      | none => rw [hc] at h; simp at h
      | some c =>
          rw [hc] at h
          simp at h
          have := countChildrenSrc_eq_countNonNullChildren cs c hc
          simp only [countNonNull]
          omega
termination_by n _ => sizeOf n

theorem countChildrenSrc_eq_countNonNullChildren :
    ∀ (cs : List (Option FigmaNode)) (k : Nat),
      countChildrenSrc cs = some k → countNonNullChildren cs = k
  | [], k => by
      intro h
      rw [countChildrenSrc] at h
      simp at h
      simp [countNonNullChildren, h]
  | none :: rest, k => by
      intro h
      rw [countChildrenSrc] at h
      simp at h
  | some c :: rest, k => by
      intro h
      rw [countChildrenSrc] at h
      cases ha : countNodesSrc c with
      | none => rw [ha] at h; simp at h
      | some a =>
          rw [ha] at h
          cases hb : countChildrenSrc rest with
          | none => rw [hb] at h; simp at h
          | some b =>
              rw [hb] at h
              simp at h
              have h1 := countNodesSrc_eq_countNonNull c a ha
              have h2 := countChildrenSrc_eq_countNonNullChildren rest b hb
              simp only [countNonNullChildren]
              omega
termination_by l _ => sizeOf l

end

/-- **C1.** `flattenDocumentTree` skips a null root (returning `[]` rather
than failing); its output lists each node in pre-order — a node at depth `d`
is emitted first, followed by the flattenings of its non-null children at
depth `d + 1`, concatenated in child order, so each parent precedes all of
its descendants and every strict descendant has strictly larger depth (root
depth `0`, child depth = parent depth + 1); null child entries contribute
nothing; and the length of the output equals the number of non-null nodes of
the tree, which agrees with `RealTimeProcessor.countNodes` whenever the
latter returns at all (it throws on null child entries). -/
theorem c1_flatten_preorder_count :
    (∀ d, flattenDocumentTree none d = []) ∧
    (∀ i nm ty cs d, flattenNode (.mk i nm ty cs) d =
      ⟨i, nm, ty, d⟩ ::
        (((cs.filterMap id).map (fun c => flattenNode c (d + 1))).flatten)) ∧
    (∀ n d x, x ∈ (flattenNode n d).tail → d < x.depth) ∧
    (∀ rest d, flattenChildren (none :: rest) d = flattenChildren rest d) ∧
    (∀ t, (flattenDocumentTree t 0).length = countNonNullRoot t) ∧
    (∀ n k, countNodesSrc n = some k → countNonNull n = k) := by
  refine ⟨fun d => rfl, ?_, ?_, ?_, ?_, countNodesSrc_eq_countNonNull⟩
  · intro i nm ty cs d
    simp [flattenNode, flattenChildren_eq_join]
  · intro n d x hx
    obtain ⟨i, nm, ty, cs⟩ := n
    simp only [flattenNode, List.tail_cons] at hx
    have := depth_le_of_mem_flattenChildren cs (d + 1) x hx
    omega
  · intro rest d
    simp [flattenChildren]
  · intro t
    cases t with
    | none => simp [flattenDocumentTree, countNonNullRoot]
    | some n =>
        simpa [flattenDocumentTree, countNonNullRoot] using flattenNode_length n 0

/-- A sample tree with null entries among children (root → [A, null],
A → [null, B]). -/
def sampleTree : FigmaNode :=
  .mk "r" "root" "DOCUMENT"
    [some (.mk "a" "A" "FRAME" [none, some (.mk "b" "B" "TEXT" [])]), none]

/-- A null-free two-node chain, on which the source `countNodes` returns. -/
def sampleChain : FigmaNode := .mk "x" "X" "FRAME" [some (.mk "y" "Y" "TEXT" [])]

theorem c1_flatten_preorder_count_witness :
    ((⟨"b", "B", "TEXT", 2⟩ : FlatNode) ∈ (flattenNode sampleTree 0).tail ∧
      0 < (⟨"b", "B", "TEXT", 2⟩ : FlatNode).depth) ∧
    (countNodesSrc sampleChain = some 2 ∧ countNonNull sampleChain = 2) := by
  have hmem : (⟨"b", "B", "TEXT", 2⟩ : FlatNode) ∈ (flattenNode sampleTree 0).tail := by
    simp [sampleTree, flattenNode, flattenChildren]
  have hsrc : countNodesSrc sampleChain = some 2 := by
    simp [sampleChain, countNodesSrc, countChildrenSrc]
  exact ⟨⟨hmem, c1_flatten_preorder_count.2.2.1 sampleTree 0 _ hmem⟩,
    ⟨hsrc, c1_flatten_preorder_count.2.2.2.2.2 sampleChain 2 hsrc⟩⟩

/-! ## `LargeFileProcessor.createChunks` / `RealTimeProcessor.createBatches`

Source (large-file-processor.ts lines 160-166 and, textually identically,
part_004 lines 264-270):

    for (let i = 0; i < array.length; i += chunkSize)
      chunks.push(array.slice(i, i + chunkSize));

The loop index and `chunkSize` are JS numbers, modelled as `Int`; the loop
itself is modelled with explicit fuel so that non-termination (the loop
condition never becoming false) is expressible: `none` means the given fuel
was exhausted before the loop exited. -/

/-- JavaScript `Array.prototype.slice` on integer arguments: negative
indices count from the end, then both are clamped to `[0, length]`. -/
def jsSlice {α : Type} (l : List α) (s e : Int) : List α :=
  let len : Int := l.length
  let s1 := if s < 0 then max (len + s) 0 else min s len
  let e1 := if e < 0 then max (len + e) 0 else min e len
  (l.drop s1.toNat).take (e1 - s1).toNat

def chunksLoop {α : Type} (arr : List α) (k : Int) :
    Nat → Int → List (List α) → Option (List (List α))
  | 0, _, _ => none
  | fuel + 1, i, acc =>
      if i < (arr.length : Int) then
        chunksLoop arr k fuel (i + k) (acc ++ [jsSlice arr i (i + k)])
      else
        some acc

/-- `createChunks`, given enough fuel for the `chunkSize ≥ 1` case
(`length + 1` iterations always suffice then). -/
def createChunks {α : Type} (arr : List α) (k : Int) : Option (List (List α)) :=
  chunksLoop arr k (arr.length + 1) 0 []

/-- `RealTimeProcessor.createBatches` is the same loop verbatim. -/
def createBatches {α : Type} (arr : List α) (k : Int) : Option (List (List α)) :=
  chunksLoop arr k (arr.length + 1) 0 []

/-- Structural reference version of chunking: first `k`, then the rest. -/
def chunksNat {α : Type} : List α → Nat → List (List α)
  | [], _ => []
  | _ :: _, 0 => []
  | a :: rest, k + 1 =>
      (a :: rest).take (k + 1) :: chunksNat ((a :: rest).drop (k + 1)) (k + 1)
termination_by l _ => l.length
decreasing_by
  simp only [List.length_drop, List.length_cons]
  omega

/-! ## The `ProcessingConfig` constructor

Source (large-file-processor.ts lines 71-83): defaults spread-merged with
the caller's partial config, with no validation of any field. -/

structure ProcessingConfig where
  chunkSize : Int
  maxConcurrentChunks : Int
  enableVirtualization : Bool
  enableStreaming : Bool
  memoryThresholdMB : Int
  maxRetriesPerChunk : Int
  progressThrottleMS : Int
deriving Repr, DecidableEq

structure ConfigOverride where
  chunkSize : Option Int
  maxConcurrentChunks : Option Int
  enableVirtualization : Option Bool
  enableStreaming : Option Bool
  memoryThresholdMB : Option Int
  maxRetriesPerChunk : Option Int
  progressThrottleMS : Option Int
deriving Repr, DecidableEq

/-- `{ chunkSize: 50, maxConcurrentChunks: 3, ..., ...config }`. -/
def mkConfig (p : ConfigOverride) : ProcessingConfig :=
  ⟨p.chunkSize.getD 50, p.maxConcurrentChunks.getD 3,
    p.enableVirtualization.getD true, p.enableStreaming.getD true,
    p.memoryThresholdMB.getD 100, p.maxRetriesPerChunk.getD 3,
    p.progressThrottleMS.getD 200⟩

/-! ### C10 supporting lemmas -/

theorem chunksNat_unfold {α : Type} (l : List α) (k : Nat) (hl : l ≠ []) (hk : k ≠ 0) :
    chunksNat l k = l.take k :: chunksNat (l.drop k) k := by
  obtain ⟨a, rest, rfl⟩ := List.exists_cons_of_ne_nil hl
  obtain ⟨k1, rfl⟩ := Nat.exists_eq_succ_of_ne_zero hk
  rw [chunksNat]

theorem chunksNat_flatten {α : Type} : ∀ (l : List α) (k : Nat), k ≠ 0 →
    (chunksNat l k).flatten = l
  | [], k => by intro _; rw [chunksNat]; rfl
  | a :: rest, k => by
      intro hk
      rw [chunksNat_unfold (a :: rest) k (by simp) hk, List.flatten_cons,
        chunksNat_flatten ((a :: rest).drop k) k hk, List.take_append_drop]
termination_by l _ => l.length
decreasing_by
  simp only [List.length_drop, List.length_cons]
  omega

theorem chunksNat_mem_bound {α : Type} : ∀ (l : List α) (k : Nat), k ≠ 0 →
    ∀ c ∈ chunksNat l k, c.length ≤ k ∧ c ≠ []
  | [], k => by intro _ c hc; rw [chunksNat] at hc; simp at hc
  | a :: rest, k => by
      intro hk c hc
      rw [chunksNat_unfold (a :: rest) k (by simp) hk, List.mem_cons] at hc
      rcases hc with h | h
      · subst h
        refine ⟨by simp only [List.length_take, List.length_cons]; omega, ?_⟩
        obtain ⟨k1, rfl⟩ := Nat.exists_eq_succ_of_ne_zero hk
        simp [List.take_succ_cons]
      · exact chunksNat_mem_bound ((a :: rest).drop k) k hk c h
termination_by l _ => l.length
decreasing_by
  simp only [List.length_drop, List.length_cons]
  omega

theorem jsSlice_take_drop {α : Type} (l : List α) (s k : Int) (hs : 0 ≤ s) (hk : 0 ≤ k) :
    jsSlice l s (s + k) = (l.drop s.toNat).take k.toNat := by
  unfold jsSlice
  dsimp only
  rw [if_neg (by omega : ¬ s < 0), if_neg (by omega : ¬ s + k < 0)]
  by_cases hs2 : s ≤ (l.length : Int)
  · rw [min_eq_left hs2]
    refine List.take_eq_take.mpr ?_
    simp only [List.length_drop]
    omega
  · have h1 : l.drop (s ⊓ (l.length : Int)).toNat = [] :=
      List.drop_eq_nil_of_le (by omega)
    have h2 : l.drop s.toNat = [] := List.drop_eq_nil_of_le (by omega)
    rw [h1, h2, List.take_nil, List.take_nil]

theorem chunksLoop_correct {α : Type} (arr : List α) (k : Int) (hk : 1 ≤ k) :
    ∀ (fuel : Nat) (i : Int) (acc : List (List α)), 0 ≤ i → 0 < fuel →
      (arr.length : Int) < i + fuel →
      chunksLoop arr k fuel i acc = some (acc ++ chunksNat (arr.drop i.toNat) k.toNat) := by
  intro fuel
  induction fuel with
  | zero => intro i acc _ h0 _; exact absurd h0 (lt_irrefl 0)
  | succ fuel ih =>
      intro i acc hi _ hlen
      rw [chunksLoop]
      by_cases h : i < (arr.length : Int)
      · rw [if_pos h, jsSlice_take_drop arr i k hi (by omega),
          ih (i + k) _ (by omega) (by omega) (by omega)]
        have hne : arr.drop i.toNat ≠ [] := by
          refine List.ne_nil_of_length_pos ?_
          simp only [List.length_drop]
          omega
        rw [chunksNat_unfold (arr.drop i.toNat) k.toNat hne (by omega)]
        have hdd : arr.drop (i + k).toNat = (arr.drop i.toNat).drop k.toNat := by
          rw [List.drop_drop]
          congr 1
          omega
        rw [hdd]
        simp
      · rw [if_neg h]
        have hnil : arr.drop i.toNat = [] := by
          refine List.drop_eq_nil_of_le ?_
          omega
        rw [hnil, chunksNat]
        simp

theorem chunksLoop_nonpos_none {α : Type} (arr : List α) (k : Int) (hk : k ≤ 0)
    (ha : arr ≠ []) : ∀ (fuel : Nat) (i : Int), i ≤ 0 → ∀ acc,
      chunksLoop arr k fuel i acc = none := by
  intro fuel
  induction fuel with
  | zero => intro i _ acc; rw [chunksLoop]
  | succ fuel ih =>
      intro i hi acc
      have hlen : 0 < (arr.length : Int) := by
        exact_mod_cast List.length_pos.mpr ha
      rw [chunksLoop, if_pos (by omega)]
      exact ih (i + k) (by omega) _

/-- **C10.** For `chunkSize ≥ 1` the `createChunks` loop terminates within
`length + 1` iterations and returns the ordered contiguous chunks: their
concatenation is the input, each chunk is non-empty of length at most
`chunkSize`; `createBatches` is the identical loop; the constructor merges
the caller's `chunkSize` over the default with no validation (any value,
including non-positive, passes through); and with `chunkSize ≤ 0` and a
non-empty input the loop condition never becomes false — no amount of fuel
makes it return. -/
theorem c10_createChunks_spec :
    (∀ (α : Type) (arr : List α) (k : Int), 1 ≤ k →
      createChunks arr k = some (chunksNat arr k.toNat) ∧
      (chunksNat arr k.toNat).flatten = arr ∧
      ∀ c ∈ chunksNat arr k.toNat, (c.length : Int) ≤ k ∧ c ≠ []) ∧
    (∀ (α : Type) (arr : List α) (k : Int), createBatches arr k = createChunks arr k) ∧
    (∀ z : Int, (mkConfig ⟨some z, none, none, none, none, none, none⟩).chunkSize = z) ∧
    (∀ (α : Type) (arr : List α) (k : Int), k ≤ 0 → arr ≠ [] →
      ∀ fuel acc, chunksLoop arr k fuel 0 acc = none) := by
  refine ⟨?_, fun α arr k => rfl, fun z => rfl, ?_⟩
  · intro α arr k hk
    have h := chunksLoop_correct arr k hk (arr.length + 1) 0 []
      le_rfl (Nat.succ_pos _) (by push_cast; omega)
    have h0 : arr.drop (0 : Int).toNat = arr := by simp
    rw [h0] at h
    refine ⟨h, chunksNat_flatten arr k.toNat (by omega), ?_⟩
    intro c hc
    have := chunksNat_mem_bound arr k.toNat (by omega) c hc
    exact ⟨by omega, this.2⟩
  · intro α arr k hk ha fuel acc
    exact chunksLoop_nonpos_none arr k hk ha fuel 0 le_rfl acc

theorem c10_createChunks_spec_witness :
    createChunks [1, 2, 3, 4, 5] (2 : Int) = some (chunksNat [1, 2, 3, 4, 5] 2) ∧
    chunksLoop [1] (0 : Int) 5 0 [] = none ∧
    (mkConfig ⟨some 0, none, none, none, none, none, none⟩).chunkSize = 0 :=
  ⟨(c10_createChunks_spec.1 Nat [1, 2, 3, 4, 5] 2 (by decide)).1,
    c10_createChunks_spec.2.2.2 Nat [1] 0 (by decide) (by decide) 5 [],
    c10_createChunks_spec.2.2.1 0⟩

/-! ## The `Semaphore` (large-file-processor.ts, lines 409-438)

`acquire`: if `permits > 0`, decrement and hand the caller a release closure
(the caller becomes a holder); otherwise push a waiter onto the queue.
`release`: increment `permits`; if the queue is non-empty, shift the oldest
waiter and run it, which decrements `permits` again and turns that waiter
into a holder.  JavaScript is single-threaded, so each of these runs
atomically between `await` points; the state is the permit counter, the
queue length, and the number of holders (callers between a successful
`acquire` and their `release`).  In `processChunksWithConcurrency` (lines
173-204) every chunk execution holds exactly one permit from `acquire` to
the `finally` release, so holders = chunks currently executing. -/

structure SemState where
  permits : Int
  queue : Nat
  holders : Nat
deriving Repr, DecidableEq

def semInit (n : Nat) : SemState := ⟨(n : Int), 0, 0⟩

inductive SemStep : SemState → SemState → Prop where
  | acquireFast (p : Int) (q hdr : Nat) (h : 0 < p) :
      SemStep ⟨p, q, hdr⟩ ⟨p - 1, q, hdr + 1⟩
  | acquireWait (p : Int) (q hdr : Nat) (h : ¬ 0 < p) :
      SemStep ⟨p, q, hdr⟩ ⟨p, q + 1, hdr⟩
  | releaseNoWake (p : Int) (hdr : Nat) (h : 0 < hdr) :
      SemStep ⟨p, 0, hdr⟩ ⟨p + 1, 0, hdr - 1⟩
  | releaseWake (p : Int) (q hdr : Nat) (h : 0 < hdr) :
      SemStep ⟨p, q + 1, hdr⟩ ⟨p, q, hdr⟩

inductive SemReach (n : Nat) : SemState → Prop where
  | init : SemReach n (semInit n)
  | step {s s1 : SemState} : SemReach n s → SemStep s s1 → SemReach n s1

theorem semReach_invariant {n : Nat} {s : SemState} (h : SemReach n s) :
    (s.holders : Int) + s.permits = (n : Int) ∧ 0 ≤ s.permits := by
  induction h with
  | init => simp [semInit]
  | step _ hstep ih =>
      cases hstep with
      | acquireFast p q hdr hp =>
          simp only [SemState.holders, SemState.permits] at ih ⊢
          constructor <;> omega
      | acquireWait p q hdr hp =>
          simp only [SemState.holders, SemState.permits] at ih ⊢
          constructor <;> omega
      | releaseNoWake p hdr hp =>
          simp only [SemState.holders, SemState.permits] at ih ⊢
          constructor <;> omega
      | releaseWake p q hdr hp =>
          simp only [SemState.holders, SemState.permits] at ih ⊢
          constructor <;> omega

/-- **C2.** From capacity `n`, in every reachable state of the semaphore the
number of holders (chunks concurrently executing) never exceeds `n`, the
permit count stays within `[0, n]`, and holders + available permits never
exceed `n` (they always sum to exactly `n`). -/
theorem c2_semaphore_bound (n : Nat) (s : SemState) (h : SemReach n s) :
    s.holders ≤ n ∧ 0 ≤ s.permits ∧ s.permits ≤ (n : Int) ∧
      (s.holders : Int) + s.permits ≤ (n : Int) := by
  have hi := semReach_invariant h
  refine ⟨by omega, hi.2, by omega, by omega⟩

theorem c2_semaphore_bound_witness :
    ((⟨2, 0, 1⟩ : SemState).holders ≤ 3 ∧ 0 ≤ (⟨2, 0, 1⟩ : SemState).permits ∧
      (⟨2, 0, 1⟩ : SemState).permits ≤ (3 : Int) ∧
      ((⟨2, 0, 1⟩ : SemState).holders : Int) + (⟨2, 0, 1⟩ : SemState).permits ≤ 3) := by
  have h1 : SemReach 3 ⟨2, 0, 1⟩ :=
    SemReach.step SemReach.init (SemStep.acquireFast 3 0 0 (by decide))
  exact c2_semaphore_bound 3 ⟨2, 0, 1⟩ h1

/-! ## `LargeFileProcessor.processChunkWithRetries` (lines 213-238)

The loop, for one chunk: while `attempt < maxRetriesPerChunk`, first check
the abort flag (throw `AbortError` if set), then run `processChunk`; on
success return; on failure increment `attempt`, rethrow if
`attempt >= maxRetriesPerChunk`, otherwise wait `100 * 2 ^ attempt`
milliseconds and loop.  `res attempt` is the result of the chunk's work
function on the given (0-based) attempt; `ab attempt` is the abort flag as
observed at the start of that iteration.  The trace records how many times
the chunk was executed, the waits between consecutive attempts, and the
outcome. -/

inductive RetryOutcome (E : Type) where
  | ok : RetryOutcome E
  | failed (e : E) : RetryOutcome E
  | aborted : RetryOutcome E
deriving Repr, DecidableEq

structure RetryTrace (E : Type) where
  execs : Nat
  delays : List Nat
  outcome : RetryOutcome E
deriving Repr, DecidableEq

def retryGo {E : Type} (maxR : Nat) (res : Nat → Except E Unit) (ab : Nat → Bool)
    (attempt : Nat) : RetryTrace E :=
  if attempt < maxR then
    if ab attempt then ⟨0, [], .aborted⟩
    else
      match res attempt with
      | .ok _ => ⟨1, [], .ok⟩
      | .error e =>
          if attempt + 1 ≥ maxR then ⟨1, [], .failed e⟩
          else
            let rest := retryGo maxR res ab (attempt + 1)
            ⟨1 + rest.execs, 100 * 2 ^ (attempt + 1) :: rest.delays, rest.outcome⟩
  else ⟨0, [], .ok⟩
termination_by maxR - attempt

def processChunkWithRetries {E : Type} (maxR : Nat) (res : Nat → Except E Unit)
    (ab : Nat → Bool) : RetryTrace E :=
  retryGo maxR res ab 0

/-! ### C3 supporting lemmas -/

theorem range_map_succ_shift (f : Nat → Nat) (m : Nat) :
    (List.range (m + 1)).map f = f 0 :: (List.range m).map (fun j => f (j + 1)) := by
  rw [List.range_succ_eq_map, List.map_cons, List.map_map]
  rfl

theorem retryGo_allfail {E : Type} (maxR : Nat) (err : Nat → E) :
    ∀ (d attempt : Nat), maxR - attempt = d + 1 →
      retryGo maxR (fun a => Except.error (err a)) (fun _ => false) attempt =
        ⟨d + 1, (List.range d).map (fun j => 100 * 2 ^ (attempt + 1 + j)),
          .failed (err (maxR - 1))⟩ := by
  intro d
  induction d with
  | zero =>
      intro attempt h
      rw [retryGo]
      rw [if_pos (by omega : attempt < maxR)]
      simp only [Bool.false_eq_true, if_false]
      rw [if_pos (by omega : maxR ≤ attempt + 1)]
      have ha : attempt = maxR - 1 := by omega
      simp [ha]
  | succ d ih =>
      intro attempt h
      rw [retryGo]
      rw [if_pos (by omega : attempt < maxR)]
      simp only [Bool.false_eq_true, if_false]
      rw [if_neg (by omega : ¬ maxR ≤ attempt + 1)]
      rw [ih (attempt + 1) (by omega)]
      simp only [RetryTrace.mk.injEq, and_true]
      refine ⟨by omega, ?_⟩
      rw [range_map_succ_shift (fun j => 100 * 2 ^ (attempt + 1 + j)) d]
      simp only [Nat.add_zero, List.cons.injEq, true_and]
      refine List.map_congr_left ?_
      intro a _
      have he : attempt + 1 + (a + 1) = attempt + 1 + 1 + a := by omega
      rw [he]

/-- **C3 (amended).** For a chunk whose work function fails on every attempt,
with no abort and `maxRetriesPerChunk ≥ 1`, the chunk is executed exactly
`maxRetriesPerChunk` times, the wait between the `a`-th and `(a+1)`-th
attempt is `100 * 2 ^ a` milliseconds (`a` counting failures so far, base
100 ms), and the last failure is rethrown (so the session ends in error).
The amendment restricts the propagation clause to `maxRetriesPerChunk ≥ 1`:
with `maxRetriesPerChunk = 0` the loop body never runs and the function
returns successfully without executing the chunk at all
(`c3_retry_counterexample`). -/
theorem c3_retry_exhaustion (E : Type) (maxR : Nat) (err : Nat → E) (h : 1 ≤ maxR) :
    (processChunkWithRetries maxR (fun a => Except.error (err a))
        (fun _ => false)).execs = maxR ∧
    (processChunkWithRetries maxR (fun a => Except.error (err a))
        (fun _ => false)).delays =
      (List.range (maxR - 1)).map (fun a => 100 * 2 ^ (a + 1)) ∧
    (processChunkWithRetries maxR (fun a => Except.error (err a))
        (fun _ => false)).outcome = .failed (err (maxR - 1)) := by
  have h0 := retryGo_allfail maxR err (maxR - 1) 0 (by omega)
  rw [processChunkWithRetries, h0]
  refine ⟨by show maxR - 1 + 1 = maxR; omega, ?_, rfl⟩
  show (List.range (maxR - 1)).map (fun j => 100 * 2 ^ (0 + 1 + j)) =
    (List.range (maxR - 1)).map (fun a => 100 * 2 ^ (a + 1))
  refine List.map_congr_left ?_
  intro a _
  have he : 0 + 1 + a = a + 1 := by omega
  rw [he]

/-- **C3 counterexample.** With `maxRetriesPerChunk = 0` an always-failing
chunk is executed zero times and `processChunkWithRetries` returns
successfully — no failure is propagated and the session would not end in
error, contradicting the claim as stated for every `maxRetriesPerChunk`. -/
theorem c3_retry_counterexample :
    processChunkWithRetries 0 (fun _ => (Except.error "boom" : Except String Unit))
        (fun _ => false) =
      ⟨0, [], RetryOutcome.ok⟩ := by
  rw [processChunkWithRetries, retryGo]
  simp

theorem c3_retry_exhaustion_witness :
    (processChunkWithRetries 3 (fun a => Except.error (10 + a))
        (fun _ => false)).execs = 3 ∧
    (processChunkWithRetries 3 (fun a => Except.error (10 + a))
        (fun _ => false)).delays = [200, 400] ∧
    (processChunkWithRetries 3 (fun a => Except.error (10 + a))
        (fun _ => false)).outcome = RetryOutcome.failed 12 := by
  have h := c3_retry_exhaustion Nat 3 (fun a => 10 + a) (by decide)
  refine ⟨h.1, ?_, h.2.2⟩
  rw [h.2.1]
  rfl

/-! ## `RealTimeProcessor` sessions (part_004)

`ProcessingSession.status` is `'active' | 'paused' | 'completed' | 'error'`
(lines 19-26) — there is no `'aborted'` value.  The session registry is a
`Map<string, ProcessingSession>`, modelled as an association list with a
recursive lookup.  The control operations (lines 198-236) are:
`pauseProcessing` writes `'paused'` into the named session whenever it
exists, with no check of the current status; `resumeProcessing` likewise
writes `'active'`; `stopProcessing` writes `'error'` (not an aborted
status) into the session object and then deletes the entry;
the worker `COMPLETE` handler and the end of `processInMainThread` write
`'completed'` unconditionally (lines 107, 144-155); `handleError` writes
`'error'` (lines 167-179). -/

inductive SessionStatus : Type where
  | active | paused | completed | error
deriving Repr, DecidableEq

structure Session where
  id : String
  startTime : Nat
  totalNodes : Nat
  processedNodes : Nat
  status : SessionStatus
deriving Repr, DecidableEq

def getSession : List (String × Session) → String → Option Session
  | [], _ => none
  | (k, s) :: rest, sid => if sid = k then some s else getSession rest sid

def setStatus : List (String × Session) → String → SessionStatus →
    List (String × Session)
  | [], _, _ => []
  | (k, s) :: rest, sid, st =>
      if k = sid then (k, { s with status := st }) :: setStatus rest sid st
      else (k, s) :: setStatus rest sid st

def deleteSession : List (String × Session) → String → List (String × Session)
  | [], _ => []
  | (k, s) :: rest, sid =>
      if k = sid then deleteSession rest sid else (k, s) :: deleteSession rest sid

def pauseProcessing (m : List (String × Session)) (sid : String) :
    List (String × Session) :=
  setStatus m sid .paused

def resumeProcessing (m : List (String × Session)) (sid : String) :
    List (String × Session) :=
  setStatus m sid .active

/-- `stopProcessing`: the first component is the session object as left to
any external holder of a reference (status written to `'error'`); the second
is the registry after `sessions.delete(sessionId)`. -/
def stopProcessing (m : List (String × Session)) (sid : String) :
    Option Session × List (String × Session) :=
  ((getSession m sid).map (fun s => { s with status := .error }),
    deleteSession m sid)

def completeSession (m : List (String × Session)) (sid : String) :
    List (String × Session) :=
  setStatus m sid .completed

def errorSession (m : List (String × Session)) (sid : String) :
    List (String × Session) :=
  setStatus m sid .error

/-! ### C4 supporting lemmas -/

theorem getSession_setStatus (m : List (String × Session)) (sid sid2 : String)
    (st : SessionStatus) :
    getSession (setStatus m sid st) sid2 =
      (getSession m sid2).map
        (fun s => if sid2 = sid then { s with status := st } else s) := by
  induction m with
  | nil => rfl
  | cons p rest ih =>
      obtain ⟨k, s⟩ := p
      simp only [setStatus]
      by_cases h1 : k = sid
      · rw [if_pos h1]
        simp only [getSession]
        by_cases h2 : sid2 = k
        · rw [if_pos h2, if_pos h2]
          simp [h2.trans h1]
        · rw [if_neg h2, if_neg h2, ih]
      · rw [if_neg h1]
        simp only [getSession]
        by_cases h2 : sid2 = k
        · have h3 : ¬ sid2 = sid := fun hh => h1 (h2.symm.trans hh)
          rw [if_pos h2, if_pos h2]
          simp [h3]
        · rw [if_neg h2, if_neg h2, ih]

theorem getSession_deleteSession (m : List (String × Session)) (sid sid2 : String) :
    getSession (deleteSession m sid) sid2 =
      if sid2 = sid then none else getSession m sid2 := by
  induction m with
  | nil => simp [deleteSession, getSession]
  | cons p rest ih =>
      obtain ⟨k, s⟩ := p
      simp only [deleteSession]
      by_cases h1 : k = sid
      · rw [if_pos h1, ih]
        by_cases h2 : sid2 = sid
        · rw [if_pos h2, if_pos h2]
        · rw [if_neg h2, if_neg h2]
          have h3 : ¬ sid2 = k := fun hh => h2 (hh.trans h1)
          simp [getSession, h3]
      · rw [if_neg h1]
        simp only [getSession]
        by_cases h2 : sid2 = k
        · have h3 : ¬ sid2 = sid := fun hh => h1 (h2.symm.trans hh)
          rw [if_pos h2, if_neg h3]
          simp [getSession, h2]
        · rw [if_neg h2, ih]
          by_cases h3 : sid2 = sid
          · rw [if_pos h3, if_pos h3]
          · rw [if_neg h3, if_neg h3]
            simp [getSession, h2]

/-- **C4 (amended).** Each control operation writes its target status
unconditionally into the named session, regardless of the session's current
status, and leaves every other session unchanged: pause writes `paused`,
resume writes `active`, completion writes `completed`, the error handler
writes `error`, and `stopProcessing` writes `error` (there is no `aborted`
status in the type) into the session object and then removes the entry from
the registry.  In particular `completed` and `error` are not terminal:
the claimed transition discipline fails (`c4_terminal_counterexample`). -/
theorem c4_session_transitions (m : List (String × Session)) (sid sid2 : String) :
    getSession (pauseProcessing m sid) sid2 =
      (getSession m sid2).map
        (fun s => if sid2 = sid then { s with status := .paused } else s) ∧
    getSession (resumeProcessing m sid) sid2 =
      (getSession m sid2).map
        (fun s => if sid2 = sid then { s with status := .active } else s) ∧
    getSession (completeSession m sid) sid2 =
      (getSession m sid2).map
        (fun s => if sid2 = sid then { s with status := .completed } else s) ∧
    getSession (errorSession m sid) sid2 =
      (getSession m sid2).map
        (fun s => if sid2 = sid then { s with status := .error } else s) ∧
    (stopProcessing m sid).1 =
      (getSession m sid).map (fun s => { s with status := .error }) ∧
    getSession (stopProcessing m sid).2 sid2 =
      (if sid2 = sid then none else getSession m sid2) :=
  ⟨getSession_setStatus m sid sid2 .paused,
    getSession_setStatus m sid sid2 .active,
    getSession_setStatus m sid sid2 .completed,
    getSession_setStatus m sid sid2 .error,
    rfl,
    getSession_deleteSession m sid sid2⟩

/-- A finished session: all 10 nodes processed, status `completed`. -/
def doneSession : Session := ⟨"s1", 0, 10, 10, .completed⟩

/-- **C4 counterexample.** `pauseProcessing` on a session whose status is
`completed` changes the status to `paused`: the claimed terminality of
`completed` (no operation changes its status again) is false on the code. -/
theorem c4_terminal_counterexample :
    doneSession.status = SessionStatus.completed ∧
    getSession (pauseProcessing [("s1", doneSession)] "s1") "s1" =
      some { doneSession with status := SessionStatus.paused } ∧
    SessionStatus.paused ≠ SessionStatus.completed := by
  refine ⟨rfl, ?_, by decide⟩
  simp [pauseProcessing, setStatus, getSession, doneSession]

/-! ## `RealTimeProcessor.processInMainThread` (part_004, lines 76-114)

The main-thread fallback loop: for each batch, if `session.status !==
'active'` it BREAKS out of the loop; after the loop it unconditionally sets
`session.status = 'completed'` and emits a `complete` event.  An external
`pauseProcessing` call can land at any `await` boundary; `pauseAt = some p`
means the status write to `'paused'` becomes visible at the check before
batch `p`.  The function returns the final `(processedNodes, status)` pair
of the session. -/

def mainLoopGo {α : Type} (batches : List (List α)) (pauseAt : Option Nat)
    (i processed : Nat) (st : SessionStatus) : Nat :=
  if h : i < batches.length then
    let st1 := if pauseAt = some i then SessionStatus.paused else st
    if st1 = SessionStatus.active then
      mainLoopGo batches pauseAt (i + 1) (processed + (batches.get ⟨i, h⟩).length) st1
    else processed
  else processed
termination_by batches.length - i

def processInMainThread {α : Type} (batches : List (List α)) (pauseAt : Option Nat) :
    Nat × SessionStatus :=
  (mainLoopGo batches pauseAt 0 0 .active, .completed)

theorem mainLoopGo_pause {α : Type} (batches : List (List α)) (p : Nat)
    (hp : p < batches.length) :
    ∀ (d j processed : Nat), p - j = d → j ≤ p →
      mainLoopGo batches (some p) j processed .active =
        processed + (((batches.drop j).take (p - j)).map List.length).sum := by
  intro d
  induction d with
  | zero =>
      intro j processed hd hj
      have hji : j = p := by omega
      subst hji
      rw [mainLoopGo, dif_pos hp]
      simp
  | succ d ih =>
      intro j processed hd hj
      have hjp : j < p := by omega
      have hjl : j < batches.length := by omega
      rw [mainLoopGo, dif_pos hjl]
      have hne : ¬ (some p = some j) := by simp; omega
      dsimp only
      rw [if_neg hne, if_pos rfl]
      rw [ih (j + 1) (processed + (batches.get ⟨j, hjl⟩).length) (by omega) (by omega)]
      have hdrop : batches.drop j = batches.get ⟨j, hjl⟩ :: batches.drop (j + 1) := by
        rw [List.drop_eq_getElem_cons hjl]
        rfl
      have hpj : p - j = (p - (j + 1)) + 1 := by omega
      rw [hdrop, hpj, List.take_succ_cons, List.map_cons, List.sum_cons]
      omega

/-- **C5 (bug evidence).** In the main-thread fallback, a pause that becomes
visible before batch `p` makes the loop BREAK; the epilogue then
unconditionally marks the session `completed` (and emits the `complete`
event) with only the first `p` batches counted.  Processing never resumes:
contrary to the claim, the pause itself ends the run in `completed` with
`processedNodes` short of `totalNodes`, instead of waiting for `resume` and
eventually completing with all nodes. -/
theorem c5_pause_completes_early {α : Type} (batches : List (List α)) (p : Nat)
    (hp : p < batches.length) :
    processInMainThread batches (some p) =
      ((((batches.take p).map List.length).sum), SessionStatus.completed) := by
  have h := mainLoopGo_pause batches p hp p 0 0 rfl (by omega)
  rw [processInMainThread, h]
  simp

theorem c5_pause_completes_early_witness :
    processInMainThread [[1, 2], [3, 4]] (some 1) = (2, SessionStatus.completed) := by
  have h := c5_pause_completes_early [[1, 2], [3, 4]] 1 (by decide)
  rw [h]
  rfl

/-! ## Abort propagation in `LargeFileProcessor` (lines 180-238)

Every path that can reach a chunk execution (`processChunk`) first
synchronously checks `abortController.signal.aborted` and throws
`AbortError` if it is set: the submission loop checks before submitting
each chunk (line 181), and the retry loop checks at the top of every
iteration, i.e. before each attempt, including the first of a queued chunk
that only now acquired its permit (line 221).  JavaScript is
single-threaded, so the check and the subsequent call run atomically; the
flag, once set by `abort()` (line 399-403), never resets during the run.
The run is modelled as an interleaving of logical steps with a global step
counter `time`; `abort()` takes effect at time `abortAt`; `begun` records
`(chunkIndex, time)` for every chunk-execution begin. -/

structure AbortRun where
  n : Nat
  abortAt : Nat
deriving Repr, DecidableEq

structure AbState where
  time : Nat
  submitIdx : Nat
  submissionStopped : Bool
  begun : List (Nat × Nat)
deriving Repr, DecidableEq

inductive AbStep (r : AbortRun) : AbState → AbState → Prop where
  | submit (t idx : Nat) (bg : List (Nat × Nat)) (h1 : idx < r.n)
      (h2 : t < r.abortAt) :
      AbStep r ⟨t, idx, false, bg⟩ ⟨t + 1, idx + 1, false, bg⟩
  | submitAbort (t idx : Nat) (bg : List (Nat × Nat)) (h1 : idx < r.n)
      (h2 : r.abortAt ≤ t) :
      AbStep r ⟨t, idx, false, bg⟩ ⟨t + 1, idx, true, bg⟩
  | beginAttempt (t idx : Nat) (stp : Bool) (bg : List (Nat × Nat)) (c : Nat)
      (h1 : c < idx) (h2 : t < r.abortAt) :
      AbStep r ⟨t, idx, stp, bg⟩ ⟨t + 1, idx, stp, (c, t) :: bg⟩
  | attemptAbort (t idx : Nat) (stp : Bool) (bg : List (Nat × Nat)) (c : Nat)
      (h1 : c < idx) (h2 : r.abortAt ≤ t) :
      AbStep r ⟨t, idx, stp, bg⟩ ⟨t + 1, idx, stp, bg⟩
  | tick (t idx : Nat) (stp : Bool) (bg : List (Nat × Nat)) :
      AbStep r ⟨t, idx, stp, bg⟩ ⟨t + 1, idx, stp, bg⟩

inductive AbReach (r : AbortRun) : AbState → Prop where
  | init : AbReach r ⟨0, 0, false, []⟩
  | step {s s1 : AbState} : AbReach r s → AbStep r s s1 → AbReach r s1

/-- A session still running: 3 of 10 nodes processed, status `active`. -/
def activeSession : Session := ⟨"s1", 0, 10, 3, .active⟩

/-- **C6 counterexample.** `RealTimeProcessor.stopProcessing` leaves the
session object with status `error` — exactly the status the error handler
writes on a chunk failure — so the session never reaches an `aborted`
status distinguishable from `error` (the status type has no such value). -/
theorem c6_aborted_status_counterexample :
    (stopProcessing [("s1", activeSession)] "s1").1 =
      some { activeSession with status := SessionStatus.error } ∧
    getSession (errorSession [("s1", activeSession)] "s1") "s1" =
      some { activeSession with status := SessionStatus.error } := by
  constructor
  · simp [stopProcessing, getSession]
  · simp [errorSession, setStatus, getSession]

/-- **C6 (amended).** In `LargeFileProcessor`, after `abort()` no new chunk
execution begins: in every reachable state of the run every recorded
chunk-execution begin happened strictly before the abort time (the flag is
checked synchronously before submitting each chunk and before every retry
attempt); the run then terminates with an `AbortError`, modelled as the
distinct `RetryOutcome.aborted` produced by the retry loop when the flag is
set.  However, `RealTimeProcessor.stopProcessing` marks the session
`error`, not an `aborted` status (no such value exists there,
`c6_aborted_status_counterexample`). -/
theorem c6_no_begin_after_abort (r : AbortRun) (s : AbState) (h : AbReach r s) :
    (∀ ct ∈ s.begun, ct.2 < r.abortAt) ∧
    (∀ (E : Type) (maxR attempt : Nat) (res : Nat → Except E Unit),
      attempt < maxR →
      retryGo maxR res (fun _ => true) attempt = ⟨0, [], .aborted⟩) := by
  constructor
  · induction h with
    | init => intro ct hct; simp at hct
    | step _ hstep ih =>
        cases hstep with
        | submit t idx bg h1 h2 => exact ih
        | submitAbort t idx bg h1 h2 => exact ih
        | beginAttempt t idx stp bg c h1 h2 =>
            intro ct hct
            simp only [List.mem_cons] at hct
            rcases hct with hh | hh
            · subst hh; exact h2
            · exact ih ct hh
        | attemptAbort t idx stp bg c h1 h2 => exact ih
        | tick t idx stp bg => exact ih
  · intro E maxR attempt res hlt
    rw [retryGo, if_pos hlt]
    simp

theorem c6_no_begin_after_abort_witness :
    ((0, 1) : Nat × Nat).2 < (⟨2, 5⟩ : AbortRun).abortAt ∧
    retryGo 3 (fun _ => (Except.error "boom" : Except String Unit))
      (fun _ => true) 0 = ⟨0, [], .aborted⟩ := by
  have hreach : AbReach ⟨2, 5⟩ ⟨2, 1, false, [(0, 1)]⟩ :=
    AbReach.step (AbReach.step AbReach.init (AbStep.submit 0 0 [] (by decide) (by decide)))
      (AbStep.beginAttempt 1 1 false [] 0 (by decide) (by decide))
  have h := c6_no_begin_after_abort ⟨2, 5⟩ ⟨2, 1, false, [(0, 1)]⟩ hreach
  exact ⟨h.1 (0, 1) (by simp), h.2 String 3 0 (fun _ => Except.error "boom") (by decide)⟩

/-! ## `LargeFileProcessor.processLargeFigmaFile` (lines 91-129)

The public entry point: flatten the tree, partition into chunks, process
the chunks (gated by the semaphore), and return `processedData` on success.
On any failure the `catch` block RETHROWS the raw error (line 123): the
locally accumulated `processedData` (processed nodes and statistics) is not
attached to it, so the caller of a rejected run receives only the error
value.  The model processes chunks in submission order (one admissible
schedule; which chunks completed before the failing one affects only the
internal counter, not the caller-visible outcome, which is always the raw
error of the failed chunk).  `res i a` is the chunk work function's result
for chunk `i` on attempt `a`; the second component of the result is the
internal `statistics.processedNodes` at the moment the run settles
(`startTime` is modelled as 0). -/

structure ProcStats where
  totalNodes : Nat
  processedNodes : Nat
  startTime : Nat
deriving Repr, DecidableEq

inductive RunOutcome (E : Type) where
  | completed (nodes : List FlatNode) (stats : ProcStats)
  | abortErr
  | err (e : E)
deriving DecidableEq

def runChunks {E : Type} (maxR : Nat) (res : Nat → Nat → Except E Unit) :
    List (List FlatNode) → Nat → List FlatNode → Nat → RunOutcome E × Nat
  | [], _, acc, total => (.completed acc ⟨total, acc.length, 0⟩, acc.length)
  | c :: rest, i, acc, total =>
      match (processChunkWithRetries maxR (res i) (fun _ => false)).outcome with
      | .ok => runChunks maxR res rest (i + 1) (acc ++ c) total
      | .failed e => (.err e, acc.length)
      | .aborted => (.abortErr, acc.length)

def processLargeFigmaFile {E : Type} (maxR chunkSize : Nat) (root : Option FigmaNode)
    (res : Nat → Nat → Except E Unit) : RunOutcome E × Nat :=
  let allNodes := flattenDocumentTree root 0
  runChunks maxR res (chunksNat allNodes chunkSize) 0 [] allNodes.length

/-- What the caller receives as data: the processed nodes and statistics on
a resolved run, nothing on a rejected one. -/
def callerView {E : Type} : RunOutcome E → Option (List FlatNode × ProcStats)
  | .completed n s => some (n, s)
  | _ => none

/-! ### C7 supporting lemmas -/

theorem runChunks_all_ok {E : Type} (maxR : Nat) (res : Nat → Nat → Except E Unit) :
    ∀ (cs : List (List FlatNode)) (i : Nat) (acc : List FlatNode) (total : Nat),
      (∀ j, j < cs.length →
        (processChunkWithRetries maxR (res (i + j)) (fun _ => false)).outcome = .ok) →
      runChunks maxR res cs i acc total =
        (.completed (acc ++ cs.flatten) ⟨total, (acc ++ cs.flatten).length, 0⟩,
          (acc ++ cs.flatten).length) := by
  intro cs
  induction cs with
  | nil => intro i acc total _; simp [runChunks]
  | cons c rest ih =>
      intro i acc total h
      have h0 : (processChunkWithRetries maxR (res i) (fun _ => false)).outcome = .ok := by
        have := h 0 (by simp)
        simpa using this
      rw [runChunks, h0]
      have hshift : ∀ j, j < rest.length →
          (processChunkWithRetries maxR (res (i + 1 + j)) (fun _ => false)).outcome = .ok := by
        intro j hj
        have heq : i + 1 + j = i + (j + 1) := by omega
        rw [heq]
        exact h (j + 1) (by simp; omega)
      rw [ih (i + 1) (acc ++ c) total hshift]
      simp

theorem runChunks_first_fail {E : Type} (maxR : Nat) (res : Nat → Nat → Except E Unit)
    (e : E) :
    ∀ (cs : List (List FlatNode)) (jf i : Nat) (acc : List FlatNode) (total : Nat),
      jf < cs.length →
      (∀ j2, j2 < jf →
        (processChunkWithRetries maxR (res (i + j2)) (fun _ => false)).outcome = .ok) →
      (processChunkWithRetries maxR (res (i + jf)) (fun _ => false)).outcome = .failed e →
      runChunks maxR res cs i acc total = (.err e, (acc ++ (cs.take jf).flatten).length) := by
  intro cs
  induction cs with
  | nil => intro jf i acc total hjf; simp at hjf
  | cons c rest ih =>
      intro jf i acc total hjf hok hfail
      cases jf with
      | zero =>
          have hf : (processChunkWithRetries maxR (res i) (fun _ => false)).outcome =
              .failed e := by simpa using hfail
          rw [runChunks, hf]
          simp
      | succ jf1 =>
          have h0 : (processChunkWithRetries maxR (res i) (fun _ => false)).outcome =
              .ok := by simpa using hok 0 (by omega)
          rw [runChunks, h0]
          have hok1 : ∀ j2, j2 < jf1 →
              (processChunkWithRetries maxR (res (i + 1 + j2)) (fun _ => false)).outcome =
                .ok := by
            intro j2 hj2
            have heq : i + 1 + j2 = i + (j2 + 1) := by omega
            rw [heq]
            exact hok (j2 + 1) (by omega)
          have hfail1 : (processChunkWithRetries maxR (res (i + 1 + jf1))
              (fun _ => false)).outcome = .failed e := by
            have heq : i + 1 + jf1 = i + (jf1 + 1) := by omega
            rw [heq]
            exact hfail
          rw [ih jf1 (i + 1) (acc ++ c) total (by simpa using hjf) hok1 hfail1]
          simp

/-- **C7 (amended).** If some chunk exhausts its retries (all earlier chunks
succeeding), the run settles as `err e` where `e` is the chunk's raw error:
the caller receives no data at all (`callerView = none`) — the already
processed nodes and the statistics accumulated so far exist only in the
run's internal state (second component) and are NOT carried by the error
result, contrary to the claim.  If instead every chunk succeeds, the run
resolves as `completed` carrying the full flattened node list and the final
statistics.  The top level observes exactly the three outcomes of
`RunOutcome` — `completed` (with data and statistics), `abortErr`, `err`
(with only the error value). -/
theorem c7_error_outcome (E : Type) (maxR chunkSize : Nat) (root : Option FigmaNode)
    (res : Nat → Nat → Except E Unit) (jf : Nat) (e : E) :
    (jf < (chunksNat (flattenDocumentTree root 0) chunkSize).length →
      (∀ j2, j2 < jf →
        (processChunkWithRetries maxR (res j2) (fun _ => false)).outcome = .ok) →
      (processChunkWithRetries maxR (res jf) (fun _ => false)).outcome = .failed e →
      (processLargeFigmaFile maxR chunkSize root res).1 = .err e ∧
      callerView (processLargeFigmaFile maxR chunkSize root res).1 = none ∧
      (processLargeFigmaFile maxR chunkSize root res).2 =
        (((chunksNat (flattenDocumentTree root 0) chunkSize).take jf).flatten).length) ∧
    (chunkSize ≠ 0 →
      (∀ j, j < (chunksNat (flattenDocumentTree root 0) chunkSize).length →
        (processChunkWithRetries maxR (res j) (fun _ => false)).outcome = .ok) →
      (processLargeFigmaFile maxR chunkSize root res).1 =
        .completed (flattenDocumentTree root 0)
          ⟨(flattenDocumentTree root 0).length, (flattenDocumentTree root 0).length, 0⟩) := by
  constructor
  · intro hjf hok hfail
    have h := runChunks_first_fail maxR res e
      (chunksNat (flattenDocumentTree root 0) chunkSize) jf 0 []
      (flattenDocumentTree root 0).length hjf
      (by intro j2 hj2; simpa using hok j2 hj2)
      (by simpa using hfail)
    rw [processLargeFigmaFile]
    rw [h]
    refine ⟨rfl, rfl, by simp⟩
  · intro hcs hok
    have h := runChunks_all_ok maxR res
      (chunksNat (flattenDocumentTree root 0) chunkSize) 0 []
      (flattenDocumentTree root 0).length
      (by intro j hj; simpa using hok j hj)
    rw [processLargeFigmaFile]
    rw [h]
    simp [chunksNat_flatten _ _ hcs]

/-- A 4-node tree: root with three childless children. -/
def tree4 : FigmaNode :=
  .mk "r" "R" "DOC"
    [some (.mk "a" "A" "T" []), some (.mk "b" "B" "T" []), some (.mk "c" "C" "T" [])]

/-- Chunk 0 always succeeds; every other chunk always fails. -/
def failingRes : Nat → Nat → Except String Unit :=
  fun i _ => if i = 0 then Except.ok () else Except.error "boom"

/-- **C7 counterexample.** Concrete run (4 nodes, chunk size 2, chunk 1
failing all 3 attempts): the run settles as the raw error, the caller
receives no data (`callerView = none`), even though 2 nodes had been
processed internally before the failure — the error outcome carries neither
the processed nodes nor the statistics, refuting the claim at this input. -/
theorem c7_error_discards_counterexample :
    (processLargeFigmaFile 3 2 (some tree4) failingRes).1 = RunOutcome.err "boom" ∧
    callerView (processLargeFigmaFile 3 2 (some tree4) failingRes).1 = none ∧
    (processLargeFigmaFile 3 2 (some tree4) failingRes).2 = 2 := by
  have h : processLargeFigmaFile 3 2 (some tree4) failingRes =
      (RunOutcome.err "boom", 2) := by
    simp [processLargeFigmaFile, tree4, flattenDocumentTree, flattenNode,
      flattenChildren, chunksNat, runChunks, processChunkWithRetries, retryGo,
      failingRes]
  rw [h]
  exact ⟨rfl, rfl, rfl⟩

theorem c7_error_outcome_witness :
    (processLargeFigmaFile 3 2 (some tree4) failingRes).1 = RunOutcome.err "boom" ∧
    callerView (processLargeFigmaFile 3 2 (some tree4) failingRes).1 = none ∧
    (processLargeFigmaFile 3 2 (some tree4) failingRes).2 =
      (((chunksNat (flattenDocumentTree (some tree4) 0) 2).take 1).flatten).length := by
  have hlen : 1 < (chunksNat (flattenDocumentTree (some tree4) 0) 2).length := by
    simp [tree4, flattenDocumentTree, flattenNode, flattenChildren, chunksNat]
  have hok : ∀ j2, j2 < 1 →
      (processChunkWithRetries 3 (failingRes j2) (fun _ => false)).outcome =
        RetryOutcome.ok := by
    intro j2 hj2
    have hj0 : j2 = 0 := by omega
    subst hj0
    simp [processChunkWithRetries, retryGo, failingRes]
  have hfail : (processChunkWithRetries 3 (failingRes 1) (fun _ => false)).outcome =
      RetryOutcome.failed "boom" := by
    simp [processChunkWithRetries, retryGo, failingRes]
  exact (c7_error_outcome String 3 2 (some tree4) failingRes 1 "boom").1 hlen hok hfail

/-! ## Progress throttling and ETA (lines 314-372)

`maybeEmitProgress` emits iff a callback is registered and either
`now - lastProgressEmitTime > progressThrottleMS` or
`processedNodes === totalNodes`.  When it emits, it FIRST overwrites
`lastProgressEmitTime` with `now` (line 325) and only THEN calls
`calculateETA` (line 327), which reads `Date.now()` again (`now2`, equal to
`now` unless the clock ticked between the two lines) and computes
`elapsed = now2 - (lastProgressEmitTime || now2)` — against the freshly
overwritten emit time, not the time of the previous snapshot.  The
`|| now2` encodes the JS falsiness of `0`.  ETA is `Infinity` when
`processed === 0` or `elapsed === 0`, else
`(total - processed) / (processed / elapsed)`. -/

inductive EtaVal : Type where
  | inf
  | fin (q : ℚ)
deriving DecidableEq

def calculateETA (processed total last now2 : Nat) : EtaVal :=
  let base : Nat := if last = 0 then now2 else last
  let elapsed : Int := (now2 : Int) - (base : Int)
  if processed = 0 ∨ elapsed = 0 then .inf
  else .fin (((total : ℚ) - (processed : ℚ)) / ((processed : ℚ) / (elapsed : ℚ)))

structure Snapshot where
  totalNodes : Nat
  processedNodes : Nat
  currentChunk : Nat
  totalChunks : Nat
  memoryUsageMB : Nat
  eta : EtaVal
deriving DecidableEq

/-- One call of `maybeEmitProgress`: given the stored `lastProgressEmitTime`
and the two `Date.now()` readings (`now` at line 320, `now2` inside
`calculateETA`), returns the new stored time and the emitted snapshot, if
any (memory usage modelled as the unsupported-environment value 0). -/
def maybeEmitProgress (throttle : Nat) (hasCb : Bool) (last now now2 : Nat)
    (total processed currentChunk totalChunks : Nat) : Nat × Option Snapshot :=
  if hasCb = true ∧ ((now : Int) - (last : Int) > (throttle : Int) ∨ processed = total) then
    (now, some ⟨total, processed, currentChunk, totalChunks, 0,
      calculateETA processed total now now2⟩)
  else (last, none)

/-- **C8 (bug).** At every emission in which the clock has not ticked
between line 320 and the `Date.now()` inside `calculateETA`
(`now2 = now`), the emitted ETA is `Infinity` — even with
`processedNodes > 0` and a nonzero elapsed time since the previous
snapshot (`lastPrev`) — because `lastProgressEmitTime` has already been
overwritten with `now`, so `elapsed = 0`.  The emitted value is therefore
never the claimed `(total - processed) / (processed / elapsedSinceLastSnapshot)`
whenever that value is finite; the claim's zero-guard half (ETA infinite
when `processed = 0`, with no division by zero) does hold. -/
theorem c8_eta_always_infinite (throttle lastPrev now total processed cur totc : Nat) :
    (processed ≠ 0 → now ≠ 0 →
      (now : Int) - (lastPrev : Int) > (throttle : Int) →
      (maybeEmitProgress throttle true lastPrev now now total processed cur totc).2 =
        some ⟨total, processed, cur, totc, 0, EtaVal.inf⟩ ∧
      ∀ q : ℚ, EtaVal.inf ≠ EtaVal.fin q) ∧
    (∀ last2 now2, calculateETA 0 total last2 now2 = EtaVal.inf) := by
  constructor
  · intro hp hn hgt
    constructor
    · rw [maybeEmitProgress, if_pos ⟨rfl, Or.inl hgt⟩]
      rw [calculateETA]
      simp only [if_neg hn]
      rw [if_pos (Or.inr (by omega))]
    · intro q
      simp
  · intro last2 now2
    rw [calculateETA, if_pos (Or.inl rfl)]

theorem c8_eta_always_infinite_witness :
    (maybeEmitProgress 200 true 1000 1300 1300 1000 100 3 20).2 =
      some ⟨1000, 100, 3, 20, 0, EtaVal.inf⟩ ∧
    EtaVal.inf ≠ EtaVal.fin 2700 := by
  have h := (c8_eta_always_infinite 200 1000 1300 1000 100 3 20).1
    (by decide) (by decide) (by decide)
  exact ⟨h.1, h.2 2700⟩

/-! ## Throttled emission over an update sequence (C9)

A run delivers a sequence of progress updates (each with the `Date.now()`
at which it arrives and its `processedNodes`/`totalNodes`);
`maybeEmitProgress` decides each one against the stored
`lastProgressEmitTime`, which is overwritten exactly when an update is
emitted.  `emitFold` replays the sequence, tagging each update with whether
it was emitted. -/

structure Upd where
  now : Nat
  processed : Nat
  total : Nat
deriving Repr, DecidableEq

def emitFold (throttle : Nat) (hasCb : Bool) : Nat → List Upd → List (Upd × Bool)
  | _, [] => []
  | last, u :: rest =>
      if hasCb = true ∧
          ((u.now : Int) - (last : Int) > (throttle : Int) ∨ u.processed = u.total) then
        (u, true) :: emitFold throttle hasCb u.now rest
      else
        (u, false) :: emitFold throttle hasCb last rest

/-! ### C9 supporting lemmas -/

theorem emitFold_first (throttle : Nat) (cb : Bool) :
    ∀ (us : List Upd) (last1 : Nat) (ys : List (Upd × Bool)) (v : Upd)
      (zs : List (Upd × Bool)),
      emitFold throttle cb last1 us = ys ++ (v, true) :: zs →
      (∀ w ∈ ys, w.2 = false) →
      cb = true ∧ ((v.now : Int) - (last1 : Int) > (throttle : Int) ∨
        v.processed = v.total) := by
  intro us
  induction us with
  | nil =>
      intro last1 ys v zs h hys
      rw [emitFold] at h
      exact absurd h (by simp)
  | cons u rest ih =>
      intro last1 ys v zs h hys
      rw [emitFold] at h
      by_cases hc : cb = true ∧
          ((u.now : Int) - (last1 : Int) > (throttle : Int) ∨ u.processed = u.total)
      · rw [if_pos hc] at h
        cases ys with
        | nil =>
            rw [List.nil_append] at h
            injection h with h1 _
            injection h1 with hu _
            subst hu
            exact hc
        | cons y ys1 =>
            rw [List.cons_append] at h
            injection h with h1 _
            have hy : y.2 = false := hys y (by simp)
            rw [← h1] at hy
            simp at hy
      · rw [if_neg hc] at h
        cases ys with
        | nil =>
            rw [List.nil_append] at h
            injection h with h1 _
            injection h1 with _ hb
            exact absurd hb (by simp)
        | cons y ys1 =>
            rw [List.cons_append] at h
            injection h with _ htail
            exact ih last1 ys1 v zs htail (fun w hw => hys w (by simp [hw]))

theorem emitFold_consecutive (throttle : Nat) (cb : Bool) :
    ∀ (us : List Upd) (last0 : Nat) (xs : List (Upd × Bool)) (u : Upd)
      (ys : List (Upd × Bool)) (v : Upd) (zs : List (Upd × Bool)),
      emitFold throttle cb last0 us = xs ++ (u, true) :: ys ++ (v, true) :: zs →
      (∀ w ∈ ys, w.2 = false) →
      (v.now : Int) - (u.now : Int) > (throttle : Int) ∨ v.processed = v.total := by
  intro us
  induction us with
  | nil =>
      intro last0 xs u ys v zs h hys
      rw [emitFold] at h
      exact absurd h (by simp)
  | cons w rest ih =>
      intro last0 xs u ys v zs h hys
      rw [emitFold] at h
      by_cases hc : cb = true ∧
          ((w.now : Int) - (last0 : Int) > (throttle : Int) ∨ w.processed = w.total)
      · rw [if_pos hc] at h
        cases xs with
        | nil =>
            rw [List.nil_append] at h
            injection h with h1 htail
            injection h1 with hw _
            subst hw
            exact (emitFold_first throttle cb rest w.now ys v zs htail hys).2
        | cons x xs1 =>
            rw [List.cons_append] at h
            injection h with _ htail
            exact ih w.now xs1 u ys v zs htail hys
      · rw [if_neg hc] at h
        cases xs with
        | nil =>
            rw [List.nil_append] at h
            injection h with h1 _
            injection h1 with _ hb
            exact absurd hb (by simp)
        | cons x xs1 =>
            rw [List.cons_append] at h
            injection h with _ htail
            exact ih last0 xs1 u ys v zs htail hys

/-- **C9.** Over any sequence of updates in a run (callback registered):
between two consecutive emissions — no emission in between — where the
later one is not the final update, strictly more than `progressThrottleMS`
elapsed (an update arriving within the throttle window of the previous
emission is suppressed); and an update with `processed = total` is always
emitted, regardless of the throttle. -/
theorem c9_progress_throttle (throttle : Nat) :
    (∀ (us : List Upd) (last0 : Nat) (xs : List (Upd × Bool)) (u : Upd)
      (ys : List (Upd × Bool)) (v : Upd) (zs : List (Upd × Bool)),
      emitFold throttle true last0 us = xs ++ (u, true) :: ys ++ (v, true) :: zs →
      (∀ w ∈ ys, w.2 = false) →
      (v.now : Int) - (u.now : Int) > (throttle : Int) ∨ v.processed = v.total) ∧
    (∀ (us : List Upd) (last0 : Nat) (p : Upd × Bool),
      p ∈ emitFold throttle true last0 us → p.1.processed = p.1.total →
      p.2 = true) := by
  constructor
  · exact emitFold_consecutive throttle true
  · intro us
    induction us with
    | nil => intro last0 p hp; rw [emitFold] at hp; simp at hp
    | cons u rest ih =>
        intro last0 p hp hfin
        rw [emitFold] at hp
        by_cases hc : (true : Bool) = true ∧
            ((u.now : Int) - (last0 : Int) > (throttle : Int) ∨ u.processed = u.total)
        · rw [if_pos hc] at hp
          rcases List.mem_cons.mp hp with hh | hh
          · rw [hh]
          · exact ih u.now p hh hfin
        · rw [if_neg hc] at hp
          rcases List.mem_cons.mp hp with hh | hh
          · exfalso
            apply hc
            refine ⟨rfl, Or.inr ?_⟩
            rw [hh] at hfin
            exact hfin
          · exact ih last0 p hh hfin

theorem c9_progress_throttle_witness :
    (((⟨1300, 30, 100⟩ : Upd).now : Int) - ((⟨1000, 10, 100⟩ : Upd).now : Int) >
        ((200 : Nat) : Int) ∨
      (⟨1300, 30, 100⟩ : Upd).processed = (⟨1300, 30, 100⟩ : Upd).total) ∧
    ((⟨1400, 100, 100⟩ : Upd), true).2 = true := by
  constructor
  · exact (c9_progress_throttle 200).1
      [⟨1000, 10, 100⟩, ⟨1150, 20, 100⟩, ⟨1300, 30, 100⟩, ⟨1400, 100, 100⟩] 0
      [] ⟨1000, 10, 100⟩ [(⟨1150, 20, 100⟩, false)] ⟨1300, 30, 100⟩
      [(⟨1400, 100, 100⟩, true)] (by decide) (by decide)
  · exact (c9_progress_throttle 200).2
      [⟨1000, 10, 100⟩, ⟨1150, 20, 100⟩, ⟨1300, 30, 100⟩, ⟨1400, 100, 100⟩] 0
      (⟨1400, 100, 100⟩, true) (by decide) (by decide)

end Pipeline
